import Mathlib

/-!
Shallow embedding of the todo-list client's core list logic and sign-in merge
flow (src/App.jsx).  Items carry an id, text content, a completion flag and a
dense position.  All list-mutating operations, the drag-reorder handler and the
`loadAndMerge` reconciliation flow are translated directly from the source.
-/

/-- Model of a todo item: `{ id, content, isCompleted, position }`. -/
structure Item where
  id : Nat
  content : String
  isCompleted : Bool
  position : Nat
deriving DecidableEq, Repr

/-- Helper for `reindex`: assign positions `n, n+1, ...` in sequence order. -/
def reindexFrom (n : Nat) : List Item → List Item
  | [] => []
  | x :: xs => { x with position := n } :: reindexFrom (n + 1) xs

/-- Source `reindex`: `itemsList.map((item, index) => ({ ...item, position: index }))`. -/
def reindex (l : List Item) : List Item := reindexFrom 0 l

/-- Source `orderByCompletion`: stable partition into actives then completed, reindexed. -/
def orderByCompletion (l : List Item) : List Item :=
  reindex (l.filter (fun i => !i.isCompleted) ++ l.filter (fun i => i.isCompleted))

/-- Insertion point for a new item, from `handleSubmit`:
`firstCompletedIndex === -1 ? items.length : firstCompletedIndex`.
`List.findIdx` already returns the length when no item is completed. -/
def insertIndexOf (items : List Item) : Nat := items.findIdx (fun i => i.isCompleted)

/-- Model of JS `array.splice(n, 0, a)`: insert `a` at index `n` (append when `n ≥ length`). -/
def listInsertAt (n : Nat) (a : α) : List α → List α
  | [] => [a]
  | x :: xs =>
    match n with
    | 0 => a :: x :: xs
    | m + 1 => x :: listInsertAt m a xs

/-- Model of JS `String.prototype.trim`: strip leading and trailing whitespace
characters (structurally, over the string's character list). -/
def jsTrim (s : String) : String :=
  ⟨((s.data.dropWhile Char.isWhitespace).reverse.dropWhile Char.isWhitespace).reverse⟩

/-- Guest branch of `handleSubmit`: trim the draft, reject empty content, splice a
fresh incomplete item at the insertion index, then `syncAll` (reindex). -/
def submitGuest (draft : String) (newId : Nat) (items : List Item) : List Item :=
  let content := jsTrim draft
  if content = "" then items
  else
    let insertIndex := insertIndexOf items
    reindex (listInsertAt insertIndex ⟨newId, content, false, insertIndex⟩ items)

/-- Row of the remote `todos` table (columns `id, title, completed, position`);
`position` is `none` when the column is not a number. -/
structure Row where
  id : Nat
  title : String
  completed : Bool
  position : Option Nat
deriving DecidableEq, Repr

/-- Row sent by a bulk insert: `{ title, completed, position, user_id }`. -/
structure InsertRow where
  title : String
  completed : Bool
  position : Nat
  userId : Nat
deriving DecidableEq, Repr

/-- Authenticated branch of `handleSubmit`, request side: the row handed to
`insert` when the trimmed draft is non-empty; no request (no I/O) otherwise. -/
def submitAuthedRequest (draft : String) (userId : Nat) (items : List Item) : Option InsertRow :=
  let content := jsTrim draft
  if content = "" then none
  else some ⟨content, false, insertIndexOf items, userId⟩

/-- Authenticated branch of `handleSubmit`, response side: build the new item from
the inserted row and splice it at the captured insertion index, then `syncAll`. -/
def submitAuthedApply (inserted : Row) (items : List Item) : List Item :=
  let insertIndex := insertIndexOf items
  reindex (listInsertAt insertIndex ⟨inserted.id, inserted.title, inserted.completed, insertIndex⟩ items)

/-- Source `handleToggle`: rewrite the flag of the item with the given id, then
rebuild the list as actives ++ completed and `syncAll` (reindex). -/
def handleToggle (prev : List Item) (id : Nat) (isCompleted : Bool) : List Item :=
  let updated := prev.map (fun item =>
    if item.id == id then { item with isCompleted := isCompleted } else item)
  let actives := updated.filter (fun i => !i.isCompleted)
  let completed := updated.filter (fun i => i.isCompleted)
  reindex (actives ++ completed)

/-- Source `handleDelete` (local effect): drop the item with the given id, then `syncAll`. -/
def handleDelete (prev : List Item) (id : Nat) : List Item :=
  reindex (prev.filter (fun item => item.id != id))

/-- Source `commitEdit`: trim the edited text; an empty result leaves the items
untouched, otherwise the matching item's content is replaced and `syncAll` runs. -/
def commitEdit (editingText : String) (id : Nat) (prev : List Item) : List Item :=
  let nextContent := jsTrim editingText
  if nextContent = "" then prev
  else
    reindex (prev.map (fun item =>
      if item.id == id then { item with content := nextContent } else item))

/-- Model of dnd-kit `arrayMove` for the in-range indices used by `onDragEnd`:
remove the element at `f`, reinsert it at `t` (out-of-range `f` returns the list). -/
def arrayMove (l : List α) (f t : Nat) : List α :=
  match l.get? f with
  | none => l
  | some x => listInsertAt t x (l.eraseIdx f)

/-- Source `new Map(prev.map(i => [i.id, i])).get(id)`: the last item carrying the id. -/
def byId (l : List Item) (i : Nat) : Option Item :=
  l.reverse.find? (fun it => it.id == i)

/-- Source `onDragEnd` (list effect): same-segment moves permute the moved item's
segment by delete-then-insert; every guard failure returns the list unchanged. -/
def onDragEnd (prev : List Item) (activeId overId : Nat) : List Item :=
  if activeId = overId then prev
  else
    match prev.find? (fun i => i.id == activeId), prev.find? (fun i => i.id == overId) with
    | some activeItem, some overItem =>
      let activeIds := (prev.filter (fun i => !i.isCompleted)).map Item.id
      let completedIds := (prev.filter (fun i => i.isCompleted)).map Item.id
      let segmentIds := if activeItem.isCompleted then completedIds else activeIds
      if activeId ∈ segmentIds then
        if activeItem.isCompleted = overItem.isCompleted then
          if overId ∈ segmentIds then
            let fromIndex := segmentIds.findIdx (fun i => i == activeId)
            let toIndex := segmentIds.findIdx (fun i => i == overId)
            let reordered := arrayMove segmentIds fromIndex toIndex
            let nextActiveIds := if activeItem.isCompleted then activeIds else reordered
            let nextCompletedIds := if activeItem.isCompleted then reordered else completedIds
            reindex ((nextActiveIds ++ nextCompletedIds).filterMap (byId prev))
          else prev
        else prev
      else prev
    | _, _ => prev

/-- Specification-side description of the same-segment drag move, used as the
refinement target for the drag-reorder claim: delete the moved item from its
segment, reinsert it at the target's index in that segment, keep the other
segment intact, reassemble as active ++ completed and reindex. -/
def reorderSpec (prev : List Item) (movedId targetId : Nat) : List Item :=
  match prev.find? (fun i => i.id == movedId) with
  | none => prev
  | some moved =>
    let seg := prev.filter (fun i => i.isCompleted == moved.isCompleted)
    let other := prev.filter (fun i => i.isCompleted == !moved.isCompleted)
    let i := seg.findIdx (fun it => it.id == movedId)
    let j := seg.findIdx (fun it => it.id == targetId)
    let movedSeg := listInsertAt j moved (seg.eraseIdx i)
    reindex (if moved.isCompleted then other ++ movedSeg else movedSeg ++ other)

/-- Source `loadGuestItems`: missing key, unreadable storage or malformed JSON all
yield the empty list.  The blob is `none` when absent. -/
def loadGuestItems (blob : Option (List Item)) : List Item := blob.getD []

/-- Helper for `normalizeRows`: turn rows into items, defaulting a non-numeric
`position` to the row's index (`typeof row.position === "number" ? row.position : index`). -/
def normalizeFrom (n : Nat) : List Row → List Item
  | [] => []
  | r :: rs => ⟨r.id, r.title, r.completed, r.position.getD n⟩ :: normalizeFrom (n + 1) rs

/-- Stable insertion step for `sortByPos`: a later element goes after equal positions. -/
def insertByPos (a : Item) : List Item → List Item
  | [] => [a]
  | x :: xs => if a.position ≤ x.position then a :: x :: xs else x :: insertByPos a xs

/-- Stable sort by `position` ascending, modelling the stable ECMAScript
`sort((a, b) => a.position - b.position)`. -/
def sortByPos : List Item → List Item
  | [] => []
  | x :: xs => insertByPos x (sortByPos xs)

/-- Source `normalizeRows`: map rows to items (index as fallback position) and
sort by `position` ascending. -/
def normalizeRows (rows : List Row) : List Item := sortByPos (normalizeFrom 0 rows)

/-- Helper for `insertPayload`: rows for guest items numbered `n, n+1, ...` with
positions offset by `base`. -/
def insertPayloadFrom (userId base : Nat) (n : Nat) : List Item → List InsertRow
  | [] => []
  | it :: its => ⟨it.content, it.isCompleted, base + n, userId⟩ :: insertPayloadFrom userId base (n + 1) its

/-- Rows sent to the bulk insert during the merge:
`guestItems.map((item, index) => ({ title, completed, position: existing.length + index, user_id }))`. -/
def insertPayload (userId : Nat) (guestItems existing : List Item) : List InsertRow :=
  insertPayloadFrom userId existing.length 0 guestItems

/-- Observable state touched by the merge flow: the item list, the data-error
slot, the loading flag and the guest blob in local storage. -/
structure AppState where
  items : List Item
  dataError : String
  isLoading : Bool
  guestBlob : Option (List Item)
deriving DecidableEq, Repr

/-- Environment of one `loadAndMerge` invocation: the outcome of each network
round trip and the value of the cancellation flag observed at each of the three
checkpoints that follow an `await`. -/
structure MergeEnv where
  fetchRes : Except String (Option (List Row))
  insertErr : Option String
  refetchRes : Except String (Option (List Row))
  upsertEmptyErr : Option String
  upsertFinalErr : Option String
  cancelAfterFetch : Bool
  cancelAfterInsert : Bool
  cancelAfterRefetch : Bool
deriving Repr

/-- Effect of a fire-and-forget `upsert` callback: a failure lands in the
data-error slot, success changes nothing. -/
def applyUpsertErr (e : Option String) (s : AppState) : AppState :=
  match e with
  | some m => { s with dataError := m }
  | none => s

/-- Source `loadAndMerge`, step by step: set loading and clear the error, load and
reindex the guest items, fetch and normalize the remote list, then either adopt it
(empty guest list) or bulk-insert the guest items, clear the blob on success,
re-fetch and adopt the refreshed list.  The cancellation flag is consulted right
after every `await`; the second component records the rows handed to the bulk
insert, if one was issued. -/
def loadAndMerge (env : MergeEnv) (userId : Nat) (s0 : AppState) :
    AppState × Option (List InsertRow) :=
  let s1 : AppState := { s0 with isLoading := true, dataError := "" }
  let guestItems := reindex (loadGuestItems s1.guestBlob)
  if env.cancelAfterFetch then (s1, none)
  else
    match env.fetchRes with
    | .error msg => ({ s1 with dataError := msg, items := [], isLoading := false }, none)
    | .ok data =>
      let existing := orderByCompletion (normalizeRows (data.getD []))
      if guestItems.isEmpty then
        let s2 := applyUpsertErr env.upsertEmptyErr { s1 with items := existing }
        ({ s2 with isLoading := false }, none)
      else
        let payload := insertPayload userId guestItems existing
        if env.cancelAfterInsert then (s1, some payload)
        else
          match env.insertErr with
          | some msg =>
            ({ s1 with dataError := msg, items := existing, isLoading := false }, some payload)
          | none =>
            let s2 : AppState := { s1 with guestBlob := none }
            if env.cancelAfterRefetch then (s2, some payload)
            else
              match env.refetchRes with
              | .error msg =>
                ({ s2 with dataError := msg, items := existing, isLoading := false }, some payload)
              | .ok none => ({ s2 with isLoading := false }, some payload)
              | .ok (some refreshed) =>
                let ordered := orderByCompletion (normalizeRows refreshed)
                let s3 := applyUpsertErr env.upsertFinalErr { s2 with items := ordered }
                ({ s3 with isLoading := false }, some payload)

/-- Completion flags may only switch from `false` to `true` along the list. -/
def flagLe (a b : Bool) : Prop := a = true → b = true

instance (a b : Bool) : Decidable (flagLe a b) := by
  unfold flagLe; infer_instance

/-- Partition invariant: all incomplete items precede all completed items. -/
def Partitioned (l : List Item) : Prop :=
  List.Pairwise flagLe (l.map Item.isCompleted)

instance (l : List Item) : Decidable (Partitioned l) := by
  unfold Partitioned; infer_instance

/-- Normalized list: partitioned, with dense positions `0..n-1`. -/
def Normalized (l : List Item) : Prop :=
  Partitioned l ∧ l.map Item.position = List.range l.length

instance (l : List Item) : Decidable (Normalized l) := by
  unfold Normalized; infer_instance

/-- Example two-item normalized list used as a concrete witness input. -/
def exList : List Item := [⟨1, "a", false, 0⟩, ⟨2, "b", true, 1⟩]

/-- Example five-item normalized list: three active then two completed items. -/
def exList5 : List Item :=
  [⟨1, "p", false, 0⟩, ⟨2, "q", false, 1⟩, ⟨3, "r", false, 2⟩,
   ⟨4, "s", true, 3⟩, ⟨5, "t", true, 4⟩]

/-- Example row returned by the remote store for a single insert. -/
def exRow : Row := ⟨9, "x", false, some 2⟩

/-- Example remote rows used in merge witnesses. -/
def exRows : List Row := [⟨7, "r1", false, some 0⟩, ⟨8, "r2", true, some 1⟩]

/-- Example guest list held in the local blob for merge witnesses. -/
def exGuest : List Item := [⟨100, "g", false, 0⟩]

/-- Example app state holding a one-item guest blob. -/
def exState : AppState := ⟨[], "", false, some exGuest⟩

/-- Merge environment where every round trip succeeds and nothing is cancelled. -/
def exEnvOk : MergeEnv :=
  ⟨.ok (some exRows), none, .ok (some exRows), none, none, false, false, false⟩

/-- Merge environment where the bulk insert fails. -/
def exEnvInsertFail : MergeEnv := { exEnvOk with insertErr := some "boom" }

/-- Merge environment cancelled at the checkpoint after the first fetch. -/
def exEnvCancel1 : MergeEnv := { exEnvOk with cancelAfterFetch := true }

/-- Merge environment cancelled at the checkpoint after the bulk insert. -/
def exEnvCancel2 : MergeEnv := { exEnvOk with cancelAfterInsert := true }

/-- Merge environment cancelled at the checkpoint after the refreshing fetch. -/
def exEnvCancel3 : MergeEnv := { exEnvOk with cancelAfterRefetch := true }

/-! ### Basic lemmas about `reindexFrom` -/

theorem reindexFrom_length (n : Nat) (l : List Item) :
    (reindexFrom n l).length = l.length := by
  induction l generalizing n with
  | nil => rfl
  | cons x xs ih => simp [reindexFrom, ih]

theorem reindex_length (l : List Item) : (reindex l).length = l.length :=
  reindexFrom_length 0 l

theorem reindexFrom_map_eq {α : Type} (f : Item → α)
    (hf : ∀ (it : Item) (k : Nat), f { it with position := k } = f it)
    (n : Nat) (l : List Item) : (reindexFrom n l).map f = l.map f := by
  induction l generalizing n with
  | nil => rfl
  | cons x xs ih => simp [reindexFrom, hf, ih]

theorem reindexFrom_map_position (n : Nat) (l : List Item) :
    (reindexFrom n l).map Item.position = List.range' n l.length := by
  induction l generalizing n with
  | nil => rfl
  | cons x xs ih => simp [reindexFrom, List.range'_succ, ih]

theorem reindex_map_position (l : List Item) :
    (reindex l).map Item.position = List.range l.length := by
  rw [reindex, reindexFrom_map_position, List.range_eq_range']

theorem filter_reindexFrom_map_eq {α : Type} (f : Item → α) (P : Item → Bool)
    (hf : ∀ (it : Item) (k : Nat), f { it with position := k } = f it)
    (hP : ∀ (it : Item) (k : Nat), P { it with position := k } = P it)
    (n : Nat) (l : List Item) :
    ((reindexFrom n l).filter P).map f = (l.filter P).map f := by
  induction l generalizing n with
  | nil => rfl
  | cons x xs ih =>
    cases hPx : P x with
    | true => simp [reindexFrom, List.filter_cons, hP, hPx, hf, ih]
    | false => simp [reindexFrom, List.filter_cons, hP, hPx, ih]

theorem reindexFrom_get? (n : Nat) (l : List Item) (i : Nat) :
    (reindexFrom n l).get? i = (l.get? i).map (fun it => { it with position := n + i }) := by
  induction l generalizing n i with
  | nil => simp [reindexFrom]
  | cons x xs ih =>
    cases i with
    | zero => rfl
    | succ m =>
      simp only [reindexFrom, List.get?_cons_succ, ih]
      have harith : n + 1 + m = n + (m + 1) := by omega
      rw [harith]

/-! ### Lemmas about `listInsertAt`, `List.eraseIdx` and `arrayMove` -/

theorem listInsertAt_map {α β : Type} (g : α → β) (n : Nat) (a : α) (l : List α) :
    (listInsertAt n a l).map g = listInsertAt n (g a) (l.map g) := by
  induction l generalizing n with
  | nil => simp [listInsertAt]
  | cons x xs ih =>
    cases n with
    | zero => rfl
    | succ m => simp [listInsertAt, ih]

theorem mem_listInsertAt {α : Type} {x a : α} (n : Nat) (l : List α) :
    x ∈ listInsertAt n a l ↔ x = a ∨ x ∈ l := by
  induction l generalizing n with
  | nil => simp [listInsertAt]
  | cons y ys ih =>
    cases n with
    | zero => simp [listInsertAt]
    | succ m =>
      simp only [listInsertAt, List.mem_cons, ih]
      tauto

theorem eraseIdx_map {α β : Type} (g : α → β) (l : List α) (i : Nat) :
    (l.map g).eraseIdx i = (l.eraseIdx i).map g := by
  induction l generalizing i with
  | nil => rfl
  | cons x xs ih =>
    cases i with
    | zero => rfl
    | succ m => simp [List.eraseIdx, ih]

theorem mem_of_mem_eraseIdx {α : Type} {x : α} {l : List α} {i : Nat}
    (h : x ∈ l.eraseIdx i) : x ∈ l := by
  induction l generalizing i with
  | nil => cases h
  | cons y ys ih =>
    cases i with
    | zero => exact List.mem_cons_of_mem y h
    | succ m =>
      rcases List.mem_cons.mp h with rfl | h'
      · exact List.mem_cons_self x ys
      · exact List.mem_cons_of_mem y (ih h')

theorem arrayMove_map {α β : Type} (g : α → β) (l : List α) (f t : Nat) :
    arrayMove (l.map g) f t = (arrayMove l f t).map g := by
  unfold arrayMove
  rw [List.get?_map]
  cases l.get? f with
  | none => rfl
  | some x => simp [listInsertAt_map, eraseIdx_map]

theorem mem_arrayMove {α : Type} {x : α} {l : List α} {f t : Nat}
    (h : x ∈ arrayMove l f t) : x ∈ l := by
  unfold arrayMove at h
  cases hg : l.get? f with
  | none => rw [hg] at h; exact h
  | some v =>
    rw [hg] at h
    rcases (mem_listInsertAt t _).mp h with rfl | h'
    · exact List.get?_mem hg
    · exact mem_of_mem_eraseIdx h'

/-! ### Lemmas about `find?` and `findIdx` -/

theorem find?_eq_some_of_unique {α : Type} (p : α → Bool) (l : List α) (x : α)
    (hx : x ∈ l) (hpx : p x = true) (huniq : ∀ u ∈ l, p u = true → u = x) :
    l.find? p = some x := by
  induction l with
  | nil => cases hx
  | cons y ys ih =>
    cases hy : p y with
    | true =>
      rw [List.find?_cons_of_pos _ hy, huniq y (List.mem_cons_self y ys) hy]
    | false =>
      rw [List.find?_cons_of_neg _ (by simp [hy])]
      rcases List.mem_cons.mp hx with rfl | hx'
      · rw [hpx] at hy; cases hy
      · exact ih hx' (fun u hu hpu => huniq u (List.mem_cons_of_mem y hu) hpu)

theorem get?_findIdx_of_find? {α : Type} (p : α → Bool) (l : List α) (v : α)
    (h : l.find? p = some v) : l.get? (l.findIdx p) = some v := by
  induction l with
  | nil => cases h
  | cons x xs ih =>
    cases hx : p x with
    | true =>
      rw [List.find?_cons_of_pos _ hx] at h
      rw [List.findIdx_cons, hx]
      simpa using h
    | false =>
      rw [List.find?_cons_of_neg _ (by simp [hx])] at h
      rw [List.findIdx_cons, hx]
      simpa using ih h

theorem findIdx_map_eq {α β : Type} (g : α → β) (p : β → Bool) (l : List α) :
    (l.map g).findIdx p = l.findIdx (fun a => p (g a)) := by
  induction l with
  | nil => rfl
  | cons x xs ih => simp [List.findIdx_cons, ih]

theorem find?_self_of_mem {a : Nat} {l : List Nat} (h : a ∈ l) :
    l.find? (fun i => i == a) = some a := by
  apply find?_eq_some_of_unique (fun i => i == a) l a h (beq_self_eq_true a)
  intro u _ hpu
  exact beq_iff_eq.mp hpu

/-! ### Lemmas about `byId` -/

theorem byId_eq_self {l : List Item} (hnd : (l.map Item.id).Nodup)
    {t : Item} (ht : t ∈ l) : byId l t.id = some t := by
  unfold byId
  apply find?_eq_some_of_unique (fun it => it.id == t.id) l.reverse t
    (List.mem_reverse.mpr ht) (beq_self_eq_true t.id)
  intro u hu hpu
  exact List.inj_on_of_nodup_map hnd (List.mem_reverse.mp hu) ht (beq_iff_eq.mp hpu)

theorem filterMap_byId_map_id {l : List Item} (hnd : (l.map Item.id).Nodup)
    (xs : List Item) (hsub : ∀ x ∈ xs, x ∈ l) :
    (xs.map Item.id).filterMap (byId l) = xs := by
  induction xs with
  | nil => rfl
  | cons x xs ih =>
    rw [List.map_cons, List.filterMap_cons,
        byId_eq_self hnd (hsub x (List.mem_cons_self x xs)),
        ih (fun y hy => hsub y (List.mem_cons_of_mem x hy))]

/-! ### Partition lemmas -/

theorem partitioned_append_of (A C : List Item)
    (hA : ∀ a ∈ A, a.isCompleted = false) (hC : ∀ c ∈ C, c.isCompleted = true) :
    Partitioned (A ++ C) := by
  unfold Partitioned
  rw [List.map_append, List.pairwise_append]
  refine ⟨?_, ?_, ?_⟩
  · apply List.pairwise_of_forall_mem_list
    intro a ha b _
    rcases List.mem_map.mp ha with ⟨x, hx, rfl⟩
    intro hcontra
    rw [hA x hx] at hcontra
    cases hcontra
  · apply List.pairwise_of_forall_mem_list
    intro a _ b hb
    rcases List.mem_map.mp hb with ⟨x, hx, rfl⟩
    intro _
    exact hC x hx
  · intro a _ b hb
    rcases List.mem_map.mp hb with ⟨x, hx, rfl⟩
    intro _
    exact hC x hx

theorem partitioned_reindexFrom (n : Nat) (l : List Item) :
    Partitioned (reindexFrom n l) ↔ Partitioned l := by
  unfold Partitioned
  rw [reindexFrom_map_eq Item.isCompleted (fun _ _ => rfl)]

theorem partitioned_sublist {l' l : List Item} (hs : List.Sublist l' l)
    (h : Partitioned l) : Partitioned l' :=
  List.Pairwise.sublist (List.Sublist.map Item.isCompleted hs) h

theorem normalized_reindex (l : List Item) (h : Partitioned l) :
    Normalized (reindex l) := by
  constructor
  · exact (partitioned_reindexFrom 0 l).mpr h
  · rw [reindex_map_position, reindex_length]

theorem partitioned_split (l : List Item) (h : Partitioned l) :
    l.filter (fun i => !i.isCompleted) ++ l.filter (fun i => i.isCompleted) = l := by
  induction l with
  | nil => rfl
  | cons x xs ih =>
    unfold Partitioned at h
    rw [List.map_cons, List.pairwise_cons] at h
    obtain ⟨hx, hxs⟩ := h
    cases hcx : x.isCompleted with
    | false =>
      have h1 : (x :: xs).filter (fun i => !i.isCompleted)
          = x :: xs.filter (fun i => !i.isCompleted) := by
        simp [List.filter_cons, hcx]
      have h2 : (x :: xs).filter (fun i => i.isCompleted)
          = xs.filter (fun i => i.isCompleted) := by
        simp [List.filter_cons, hcx]
      rw [h1, h2, List.cons_append, ih hxs]
    | true =>
      have hall : ∀ b ∈ xs, b.isCompleted = true := by
        intro b hb
        exact hx b.isCompleted (List.mem_map_of_mem Item.isCompleted hb) hcx
      have h1 : (x :: xs).filter (fun i => !i.isCompleted) = [] := by
        rw [List.filter_eq_nil]
        intro a ha
        rcases List.mem_cons.mp ha with rfl | ha'
        · simp [hcx]
        · simp [hall a ha']
      have h2 : (x :: xs).filter (fun i => i.isCompleted) = x :: xs := by
        rw [List.filter_eq_self]
        intro a ha
        rcases List.mem_cons.mp ha with rfl | ha'
        · exact hcx
        · exact hall a ha'
      rw [h1, h2, List.nil_append]

theorem pairwise_listInsertAt_false (bs : List Bool)
    (h : List.Pairwise flagLe bs) :
    List.Pairwise flagLe (listInsertAt (bs.findIdx (fun b => b)) false bs) := by
  induction bs with
  | nil =>
    simp [listInsertAt]
  | cons b bs ih =>
    rw [List.pairwise_cons] at h
    obtain ⟨hb, hbs⟩ := h
    cases b with
    | true =>
      rw [List.findIdx_cons]
      show List.Pairwise flagLe (false :: true :: bs)
      rw [List.pairwise_cons]
      constructor
      · intro y _ hy
        cases hy
      · rw [List.pairwise_cons]
        exact ⟨hb, hbs⟩
    | false =>
      rw [List.findIdx_cons]
      show List.Pairwise flagLe (false :: listInsertAt (bs.findIdx (fun b => b)) false bs)
      rw [List.pairwise_cons]
      constructor
      · intro y _ hy
        cases hy
      · exact ih hbs

/-! ### Normalization of each mutation -/

theorem normalized_orderByCompletion (l : List Item) :
    Normalized (orderByCompletion l) := by
  unfold orderByCompletion
  apply normalized_reindex
  apply partitioned_append_of
  · intro a ha
    have := (List.mem_filter.mp ha).2
    simpa using this
  · intro c hc
    exact (List.mem_filter.mp hc).2

theorem normalized_handleToggle (prev : List Item) (id : Nat) (b : Bool) :
    Normalized (handleToggle prev id b) := by
  unfold handleToggle
  apply normalized_reindex
  apply partitioned_append_of
  · intro a ha
    have := (List.mem_filter.mp ha).2
    simpa using this
  · intro c hc
    exact (List.mem_filter.mp hc).2

theorem partitioned_insert_new (items : List Item) (h : Partitioned items)
    (it : Item) (hit : it.isCompleted = false) :
    Partitioned (listInsertAt (insertIndexOf items) it items) := by
  unfold Partitioned
  rw [listInsertAt_map Item.isCompleted, hit]
  unfold insertIndexOf
  rw [show items.findIdx (fun i => i.isCompleted)
        = (items.map Item.isCompleted).findIdx (fun b => b) from
      (findIdx_map_eq Item.isCompleted (fun b => b) items).symm]
  exact pairwise_listInsertAt_false _ h

theorem normalized_submitGuest (draft : String) (newId : Nat) (items : List Item)
    (h : Normalized items) : Normalized (submitGuest draft newId items) := by
  unfold submitGuest
  by_cases hc : jsTrim draft = ""
  · simpa [hc] using h
  · rw [if_neg hc]
    apply normalized_reindex
    exact partitioned_insert_new items h.1 _ rfl

theorem normalized_submitAuthedApply (inserted : Row) (items : List Item)
    (hrow : inserted.completed = false) (h : Normalized items) :
    Normalized (submitAuthedApply inserted items) := by
  unfold submitAuthedApply
  apply normalized_reindex
  exact partitioned_insert_new items h.1 _ hrow

theorem normalized_commitEdit (txt : String) (id : Nat) (prev : List Item)
    (h : Normalized prev) : Normalized (commitEdit txt id prev) := by
  unfold commitEdit
  by_cases hc : jsTrim txt = ""
  · simpa [hc] using h
  · rw [if_neg hc]
    apply normalized_reindex
    unfold Partitioned
    rw [List.map_map]
    have : prev.map (Item.isCompleted ∘ fun item =>
        if item.id == id then { item with content := jsTrim txt } else item)
        = prev.map Item.isCompleted := by
      apply List.map_congr_left
      intro a _
      cases hb : a.id == id
      · have hne : ¬a.id = id := by simpa using hb
        simp [hne]
      · have heq : a.id = id := by simpa using hb
        simp [heq]
    rw [this]
    exact h.1

theorem normalized_handleDelete (prev : List Item) (id : Nat)
    (h : Normalized prev) : Normalized (handleDelete prev id) := by
  unfold handleDelete
  apply normalized_reindex
  exact partitioned_sublist (List.filter_sublist prev) h.1

theorem byId_of_mem_seg_ids {prev : List Item} (hnd : (prev.map Item.id).Nodup)
    (P : Item → Bool) {i : Nat}
    (hi : i ∈ (prev.filter P).map Item.id) {v : Item}
    (hv : byId prev i = some v) : P v = true := by
  rcases List.mem_map.mp hi with ⟨t, ht, rfl⟩
  have htl : t ∈ prev := (List.mem_filter.mp ht).1
  rw [byId_eq_self hnd htl] at hv
  injection hv with hv
  subst hv
  exact (List.mem_filter.mp ht).2

theorem partitioned_assembled (prev : List Item) (hnd : (prev.map Item.id).Nodup)
    (xs ys : List Nat)
    (hxs : ∀ i ∈ xs, i ∈ (prev.filter (fun it => !it.isCompleted)).map Item.id)
    (hys : ∀ i ∈ ys, i ∈ (prev.filter (fun it => it.isCompleted)).map Item.id) :
    Partitioned ((xs ++ ys).filterMap (byId prev)) := by
  rw [List.filterMap_append]
  apply partitioned_append_of
  · intro v hv
    rcases List.mem_filterMap.mp hv with ⟨i, hi, hbi⟩
    have := byId_of_mem_seg_ids hnd (fun it => !it.isCompleted) (hxs i hi) hbi
    simpa using this
  · intro v hv
    rcases List.mem_filterMap.mp hv with ⟨i, hi, hbi⟩
    exact byId_of_mem_seg_ids hnd (fun it => it.isCompleted) (hys i hi) hbi

theorem normalized_onDragEnd (prev : List Item) (a o : Nat)
    (h : Normalized prev) (hnd : (prev.map Item.id).Nodup) :
    Normalized (onDragEnd prev a o) := by
  unfold onDragEnd
  split
  · exact h
  · split
    · rename_i activeItem overItem hxa hxo
      dsimp only
      cases hflag : activeItem.isCompleted
      · simp only [Bool.false_eq_true, if_false]
        split
        · split
          · split
            · apply normalized_reindex
              apply partitioned_assembled prev hnd
              · intro i hi
                exact mem_arrayMove hi
              · intro i hi
                exact hi
            · exact h
          · exact h
        · exact h
      · simp only [if_true]
        split
        · split
          · split
            · apply normalized_reindex
              apply partitioned_assembled prev hnd
              · intro i hi
                exact hi
              · intro i hi
                exact mem_arrayMove hi
            · exact h
          · exact h
        · exact h
    · exact h

/-! ### The same-segment drag move as a delete-then-insert -/

theorem nodup_map_id_filter {prev : List Item} (hnd : (prev.map Item.id).Nodup)
    (P : Item → Bool) : ((prev.filter P).map Item.id).Nodup := by
  have hsub : List.Sublist ((prev.filter P).map Item.id) (prev.map Item.id) :=
    List.Sublist.map Item.id (List.filter_sublist prev)
  exact List.Nodup.sublist hsub hnd

theorem find?_id_eq_some {l : List Item} (hnd : (l.map Item.id).Nodup)
    {x : Item} {a : Nat} (hx : x ∈ l) (hxa : x.id = a) :
    l.find? (fun i => i.id == a) = some x := by
  apply find?_eq_some_of_unique (fun i => i.id == a) l x hx
    (by show (x.id == a) = true; rw [hxa]; exact beq_self_eq_true a)
  intro u hu hpu
  exact List.inj_on_of_nodup_map hnd hu hx (by rw [beq_iff_eq.mp hpu, hxa])

theorem filter_beq_false (l : List Item) :
    l.filter (fun i => i.isCompleted == false) = l.filter (fun i => !i.isCompleted) := by
  apply List.filter_congr
  intro a _
  cases a.isCompleted <;> rfl

theorem filter_beq_true (l : List Item) :
    l.filter (fun i => i.isCompleted == true) = l.filter (fun i => i.isCompleted) := by
  apply List.filter_congr
  intro a _
  cases a.isCompleted <;> rfl

theorem mem_map_id_filter {x : Item} {l : List Item} (P : Item → Bool)
    (hx : x ∈ l) (hP : P x = true) : x.id ∈ (l.filter P).map Item.id :=
  List.mem_map_of_mem Item.id (List.mem_filter.mpr ⟨hx, hP⟩)

theorem arrayMove_ids_eq {prev : List Item} (hnd : (prev.map Item.id).Nodup)
    (P : Item → Bool) {x : Item} {a : Nat} (o : Nat)
    (hx : x ∈ prev) (hxa : x.id = a) (hPx : P x = true) :
    arrayMove ((prev.filter P).map Item.id)
        (((prev.filter P).map Item.id).findIdx (fun i => i == a))
        (((prev.filter P).map Item.id).findIdx (fun i => i == o))
      = (listInsertAt ((prev.filter P).findIdx (fun it => it.id == o)) x
          ((prev.filter P).eraseIdx
            ((prev.filter P).findIdx (fun it => it.id == a)))).map Item.id := by
  have hndseg : (((prev.filter P)).map Item.id).Nodup := nodup_map_id_filter hnd P
  have hxseg : x ∈ prev.filter P := List.mem_filter.mpr ⟨hx, hPx⟩
  have hfind : (prev.filter P).find? (fun it => it.id == a) = some x :=
    find?_id_eq_some hndseg hxseg hxa
  have hget : (prev.filter P).get? ((prev.filter P).findIdx (fun it => it.id == a)) = some x :=
    get?_findIdx_of_find? _ _ _ hfind
  rw [findIdx_map_eq Item.id (fun i => i == a) (prev.filter P),
      findIdx_map_eq Item.id (fun i => i == o) (prev.filter P),
      arrayMove_map Item.id (prev.filter P)]
  congr 1
  unfold arrayMove
  rw [hget]

theorem mem_move_sub {seg prev : List Item} (hseg : ∀ t ∈ seg, t ∈ prev) {x : Item}
    (hx : x ∈ prev) (j i : Nat) :
    ∀ t ∈ listInsertAt j x (seg.eraseIdx i), t ∈ prev := by
  intro t ht
  rcases (mem_listInsertAt j _).mp ht with rfl | ht'
  · exact hx
  · exact hseg t (mem_of_mem_eraseIdx ht')

theorem onDragEnd_eq_reorderSpec (prev : List Item) (a o : Nat)
    (hnd : (prev.map Item.id).Nodup) {x y : Item}
    (hxa : prev.find? (fun i => i.id == a) = some x)
    (hxo : prev.find? (fun i => i.id == o) = some y)
    (hsame : x.isCompleted = y.isCompleted)
    (hao : a ≠ o) :
    onDragEnd prev a o = reorderSpec prev a o := by
  have hxmem : x ∈ prev := List.mem_of_find?_eq_some hxa
  have hxid : x.id = a := by
    have h1 := List.find?_some hxa
    simpa using h1
  have hymem : y ∈ prev := List.mem_of_find?_eq_some hxo
  have hyid : y.id = o := by
    have h1 := List.find?_some hxo
    simpa using h1
  unfold onDragEnd reorderSpec
  rw [if_neg hao]
  simp only [hxa, hxo]
  cases hflag : x.isCompleted
  · have hy : y.isCompleted = false := by rw [← hsame, hflag]
    have hamem : a ∈ (prev.filter (fun i => !i.isCompleted)).map Item.id :=
      hxid ▸ mem_map_id_filter _ hxmem (show (!x.isCompleted) = true by rw [hflag]; rfl)
    have homem : o ∈ (prev.filter (fun i => !i.isCompleted)).map Item.id :=
      hyid ▸ mem_map_id_filter _ hymem (show (!y.isCompleted) = true by rw [hy]; rfl)
    simp only [Bool.false_eq_true, if_false, Bool.not_false]
    rw [filter_beq_false, filter_beq_true]
    rw [if_pos hamem, if_pos hy.symm, if_pos homem]
    rw [arrayMove_ids_eq hnd (fun i => !i.isCompleted) o hxmem hxid
      (show (!x.isCompleted) = true by rw [hflag]; rfl)]
    rw [← List.map_append]
    refine congrArg reindex (filterMap_byId_map_id hnd _ ?_)
    intro t ht
    rcases List.mem_append.mp ht with h1 | h2
    · exact mem_move_sub (fun u hu => (List.mem_filter.mp hu).1) hxmem _ _ t h1
    · exact (List.mem_filter.mp h2).1
  · have hy : y.isCompleted = true := by rw [← hsame, hflag]
    have hamem : a ∈ (prev.filter (fun i => i.isCompleted)).map Item.id :=
      hxid ▸ mem_map_id_filter _ hxmem hflag
    have homem : o ∈ (prev.filter (fun i => i.isCompleted)).map Item.id :=
      hyid ▸ mem_map_id_filter _ hymem hy
    simp only [eq_self_iff_true, if_true, Bool.not_true]
    rw [filter_beq_false, filter_beq_true]
    rw [if_pos hamem, if_pos hy.symm, if_pos homem]
    rw [arrayMove_ids_eq hnd (fun i => i.isCompleted) o hxmem hxid hflag]
    rw [← List.map_append]
    refine congrArg reindex (filterMap_byId_map_id hnd _ ?_)
    intro t ht
    rcases List.mem_append.mp ht with h1 | h2
    · exact (List.mem_filter.mp h1).1
    · exact mem_move_sub (fun u hu => (List.mem_filter.mp hu).1) hxmem _ _ t h2

/-! ### Where a toggled item lands -/

theorem map_toggle_fix {C : List Item} {id : Nat} (b : Bool)
    (h : ∀ t ∈ C, t.id ≠ id) :
    C.map (fun item =>
      if item.id == id then { item with isCompleted := b } else item) = C := by
  induction C with
  | nil => rfl
  | cons c cs ih =>
    have hne : (c.id == id) = false := by
      simpa using h c (List.mem_cons_self c cs)
    simp only [List.map_cons, hne, Bool.false_eq_true, if_false]
    rw [ih (fun t ht => h t (List.mem_cons_of_mem c ht))]

theorem filter_c_of_filter_not_c (l : List Item) :
    (l.filter (fun i => !i.isCompleted)).filter (fun i => i.isCompleted) = [] := by
  rw [List.filter_eq_nil]
  intro a ha
  have h2 := (List.mem_filter.mp ha).2
  simp at h2
  simp [h2]

theorem filter_c_of_filter_c (l : List Item) :
    (l.filter (fun i => i.isCompleted)).filter (fun i => i.isCompleted)
      = l.filter (fun i => i.isCompleted) := by
  rw [List.filter_eq_self]
  intro a ha
  exact (List.mem_filter.mp ha).2

theorem filter_not_c_of_filter_not_c (l : List Item) :
    (l.filter (fun i => !i.isCompleted)).filter (fun i => !i.isCompleted)
      = l.filter (fun i => !i.isCompleted) := by
  rw [List.filter_eq_self]
  intro a ha
  exact (List.mem_filter.mp ha).2

theorem filter_not_c_of_filter_c (l : List Item) :
    (l.filter (fun i => i.isCompleted)).filter (fun i => !i.isCompleted) = [] := by
  rw [List.filter_eq_nil]
  intro a ha
  have h2 := (List.mem_filter.mp ha).2
  simp [h2]

theorem filter_c_map_toggle_of_actives {A : List Item} {x : Item} (hx : x ∈ A)
    (hA : ∀ t ∈ A, t.isCompleted = false) (hnd : (A.map Item.id).Nodup) :
    (A.map (fun item =>
        if item.id == x.id then { item with isCompleted := true } else item)).filter
      (fun i => i.isCompleted) = [{ x with isCompleted := true }] := by
  induction A with
  | nil => cases hx
  | cons c cs ih =>
    have hcfalse : c.isCompleted = false := hA c (List.mem_cons_self c cs)
    have hnd' : c.id ∉ cs.map Item.id ∧ (cs.map Item.id).Nodup :=
      List.nodup_cons.mp (by simpa using hnd)
    cases hcx : c.id == x.id
    · have hxcs : x ∈ cs := by
        rcases List.mem_cons.mp hx with rfl | h
        · simp at hcx
        · exact h
      simp only [List.map_cons, List.filter_cons, hcx, Bool.false_eq_true, if_false,
        hcfalse]
      exact ih hxcs (fun t ht => hA t (List.mem_cons_of_mem c ht)) hnd'.2
    · have hceq : c.id = x.id := by simpa using hcx
      have hcx' : c = x := by
        rcases List.mem_cons.mp hx with rfl | h
        · rfl
        · exfalso
          have hxin : x.id ∈ cs.map Item.id := List.mem_map_of_mem Item.id h
          rw [← hceq] at hxin
          exact hnd'.1 hxin
      subst hcx'
      have hfix : cs.map (fun item =>
          if item.id == c.id then { item with isCompleted := true } else item) = cs := by
        apply map_toggle_fix
        intro t ht hteq
        exact hnd'.1 (hteq ▸ List.mem_map_of_mem Item.id ht)
      have hcsnil : cs.filter (fun i => i.isCompleted) = [] := by
        rw [List.filter_eq_nil]
        intro t ht
        simp [hA t (List.mem_cons_of_mem c ht)]
      simp only [List.map_cons, beq_self_eq_true, eq_self_iff_true, if_true]
      rw [hfix, List.filter_cons]
      simp [hcsnil]

theorem filter_not_c_map_toggle_of_completed {C : List Item} {x : Item} (hx : x ∈ C)
    (hC : ∀ t ∈ C, t.isCompleted = true) (hnd : (C.map Item.id).Nodup) :
    (C.map (fun item =>
        if item.id == x.id then { item with isCompleted := false } else item)).filter
      (fun i => !i.isCompleted) = [{ x with isCompleted := false }] := by
  induction C with
  | nil => cases hx
  | cons c cs ih =>
    have hctrue : c.isCompleted = true := hC c (List.mem_cons_self c cs)
    have hnd' : c.id ∉ cs.map Item.id ∧ (cs.map Item.id).Nodup :=
      List.nodup_cons.mp (by simpa using hnd)
    cases hcx : c.id == x.id
    · have hxcs : x ∈ cs := by
        rcases List.mem_cons.mp hx with rfl | h
        · simp at hcx
        · exact h
      simp only [List.map_cons, List.filter_cons, hcx, Bool.false_eq_true, if_false,
        hctrue]
      exact ih hxcs (fun t ht => hC t (List.mem_cons_of_mem c ht)) hnd'.2
    · have hceq : c.id = x.id := by simpa using hcx
      have hcx' : c = x := by
        rcases List.mem_cons.mp hx with rfl | h
        · rfl
        · exfalso
          have hxin : x.id ∈ cs.map Item.id := List.mem_map_of_mem Item.id h
          rw [← hceq] at hxin
          exact hnd'.1 hxin
      subst hcx'
      have hfix : cs.map (fun item =>
          if item.id == c.id then { item with isCompleted := false } else item) = cs := by
        apply map_toggle_fix
        intro t ht hteq
        exact hnd'.1 (hteq ▸ List.mem_map_of_mem Item.id ht)
      have hcsnil : cs.filter (fun i => !i.isCompleted) = [] := by
        rw [List.filter_eq_nil]
        intro t ht
        simp [hC t (List.mem_cons_of_mem c ht)]
      simp only [List.map_cons, beq_self_eq_true, eq_self_iff_true, if_true]
      rw [hfix, List.filter_cons]
      simp [hcsnil]

theorem toggle_filter_c {A C : List Item} {x : Item}
    (hA : ∀ t ∈ A, t.isCompleted = false) (hC : ∀ t ∈ C, t.isCompleted = true)
    (hx : x ∈ A) (hnd : ((A ++ C).map Item.id).Nodup) :
    ((A ++ C).map (fun item =>
        if item.id == x.id then { item with isCompleted := true } else item)).filter
      (fun i => i.isCompleted)
    = { x with isCompleted := true } :: C := by
  have hndA : (A.map Item.id).Nodup := by
    rw [List.map_append] at hnd
    exact List.Nodup.sublist (List.sublist_append_left _ _) hnd
  have hnotC : ∀ t ∈ C, t.id ≠ x.id := by
    intro t ht hteq
    have ht' : t = x := List.inj_on_of_nodup_map hnd
      (List.mem_append.mpr (Or.inr ht)) (List.mem_append.mpr (Or.inl hx)) hteq
    rw [ht'] at ht
    exact absurd (hC x ht) (by simp [hA x hx])
  rw [List.map_append, List.filter_append, map_toggle_fix true hnotC,
    List.filter_eq_self.mpr hC, filter_c_map_toggle_of_actives hx hA hndA]
  rfl

theorem toggle_filter_not_c {A C : List Item} {x : Item}
    (hA : ∀ t ∈ A, t.isCompleted = false) (hC : ∀ t ∈ C, t.isCompleted = true)
    (hx : x ∈ C) (hnd : ((A ++ C).map Item.id).Nodup) :
    ((A ++ C).map (fun item =>
        if item.id == x.id then { item with isCompleted := false } else item)).filter
      (fun i => !i.isCompleted)
    = A ++ [{ x with isCompleted := false }] := by
  have hndC : (C.map Item.id).Nodup := by
    rw [List.map_append] at hnd
    exact List.Nodup.sublist (List.sublist_append_right _ _) hnd
  have hnotA : ∀ t ∈ A, t.id ≠ x.id := by
    intro t ht hteq
    have ht' : t = x := List.inj_on_of_nodup_map hnd
      (List.mem_append.mpr (Or.inl ht)) (List.mem_append.mpr (Or.inr hx)) hteq
    rw [ht'] at ht
    exact absurd (hC x hx) (by simp [hA x ht])
  rw [List.map_append, List.filter_append, map_toggle_fix false hnotA,
    List.filter_eq_self.mpr (fun a ha => by simp [hA a ha]),
    filter_not_c_map_toggle_of_completed hx hC hndC]

theorem handleToggle_parts_completed (A C : List Item) (x : Item)
    (hA : ∀ t ∈ A, t.isCompleted = false) (hC : ∀ t ∈ C, t.isCompleted = true)
    (hx : x ∈ A) (hnd : ((A ++ C).map Item.id).Nodup) :
    ((handleToggle (A ++ C) x.id true).filter (fun i => i.isCompleted)).map Item.id
      = x.id :: C.map Item.id := by
  simp only [handleToggle, reindex]
  rw [filter_reindexFrom_map_eq Item.id (fun i => i.isCompleted)
    (fun _ _ => rfl) (fun _ _ => rfl)]
  rw [List.filter_append, filter_c_of_filter_not_c, filter_c_of_filter_c,
    List.nil_append]
  rw [toggle_filter_c hA hC hx hnd]
  rfl

theorem handleToggle_parts_active (A C : List Item) (x : Item)
    (hA : ∀ t ∈ A, t.isCompleted = false) (hC : ∀ t ∈ C, t.isCompleted = true)
    (hx : x ∈ C) (hnd : ((A ++ C).map Item.id).Nodup) :
    ((handleToggle (A ++ C) x.id false).filter (fun i => !i.isCompleted)).map Item.id
      = A.map Item.id ++ [x.id] := by
  simp only [handleToggle, reindex]
  rw [filter_reindexFrom_map_eq Item.id (fun i => !i.isCompleted)
    (fun _ _ => rfl) (fun _ _ => rfl)]
  rw [List.filter_append, filter_not_c_of_filter_not_c, filter_not_c_of_filter_c,
    List.append_nil]
  rw [toggle_filter_not_c hA hC hx hnd]
  simp

theorem handleToggle_complete_head {prev : List Item} (hpart : Partitioned prev)
    (hnd : (prev.map Item.id).Nodup) {x : Item} (hx : x ∈ prev)
    (hflag : x.isCompleted = false) :
    ((handleToggle prev x.id true).filter (fun i => i.isCompleted)).map Item.id
      = x.id :: (prev.filter (fun i => i.isCompleted)).map Item.id := by
  have hsplit := partitioned_split prev hpart
  have hxA : x ∈ prev.filter (fun i => !i.isCompleted) :=
    List.mem_filter.mpr ⟨hx, by rw [hflag]; rfl⟩
  have hnd' : ((prev.filter (fun i => !i.isCompleted)
      ++ prev.filter (fun i => i.isCompleted)).map Item.id).Nodup := by
    rw [hsplit]
    exact hnd
  conv_lhs => rw [← hsplit]
  exact handleToggle_parts_completed _ _ x
    (fun t ht => by simpa using (List.mem_filter.mp ht).2)
    (fun t ht => (List.mem_filter.mp ht).2) hxA hnd'

theorem handleToggle_active_last {prev : List Item} (hpart : Partitioned prev)
    (hnd : (prev.map Item.id).Nodup) {x : Item} (hx : x ∈ prev)
    (hflag : x.isCompleted = true) :
    ((handleToggle prev x.id false).filter (fun i => !i.isCompleted)).map Item.id
      = (prev.filter (fun i => !i.isCompleted)).map Item.id ++ [x.id] := by
  have hsplit := partitioned_split prev hpart
  have hxC : x ∈ prev.filter (fun i => i.isCompleted) :=
    List.mem_filter.mpr ⟨hx, hflag⟩
  have hnd' : ((prev.filter (fun i => !i.isCompleted)
      ++ prev.filter (fun i => i.isCompleted)).map Item.id).Nodup := by
    rw [hsplit]
    exact hnd
  conv_lhs => rw [← hsplit]
  exact handleToggle_parts_active _ _ x
    (fun t ht => by simpa using (List.mem_filter.mp ht).2)
    (fun t ht => (List.mem_filter.mp ht).2) hxC hnd'

/-! ### Lemmas about the merge insert payload and guest list -/

theorem insertPayloadFrom_length (u base : Nat) (n : Nat) (l : List Item) :
    (insertPayloadFrom u base n l).length = l.length := by
  induction l generalizing n with
  | nil => rfl
  | cons x xs ih => simp [insertPayloadFrom, ih]

theorem insertPayloadFrom_get? (u base : Nat) (l : List Item) (n i : Nat) :
    (insertPayloadFrom u base n l).get? i
      = (l.get? i).map (fun it => ⟨it.content, it.isCompleted, base + (n + i), u⟩) := by
  induction l generalizing n i with
  | nil => simp [insertPayloadFrom]
  | cons x xs ih =>
    cases i with
    | zero => simp [insertPayloadFrom]
    | succ m =>
      simp only [insertPayloadFrom, List.get?_cons_succ, ih]
      have harith : n + 1 + m = n + (m + 1) := by omega
      rw [harith]

theorem insertPayload_length (u : Nat) (g existing : List Item) :
    (insertPayload u (reindex g) existing).length = g.length := by
  unfold insertPayload reindex
  rw [insertPayloadFrom_length, reindexFrom_length]

theorem insertPayload_get? (u : Nat) (g existing : List Item) (i : Nat) :
    (insertPayload u (reindex g) existing).get? i
      = (g.get? i).map (fun it =>
          ⟨it.content, it.isCompleted, existing.length + i, u⟩) := by
  unfold insertPayload reindex
  rw [insertPayloadFrom_get?, reindexFrom_get?]
  cases g.get? i <;> simp

theorem reindex_isEmpty (g : List Item) : (reindex g).isEmpty = g.isEmpty := by
  cases g <;> rfl

theorem isEmpty_false_of_ne_nil {g : List Item} (hg : g ≠ []) : g.isEmpty = false := by
  cases g
  · exact absurd rfl hg
  · rfl

/-! ### Lemmas about the insertion index of a new item -/

theorem get?_lt_findIdx {α : Type} (p : α → Bool) (l : List α) (j : Nat)
    (hj : j < l.findIdx p) : (l.get? j).map p = some false := by
  induction l generalizing j with
  | nil =>
    have h0 : ([] : List α).findIdx p = 0 := rfl
    rw [h0] at hj
    omega
  | cons x xs ih =>
    cases hx : p x
    · cases j with
      | zero => simp [hx]
      | succ m =>
        rw [List.findIdx_cons, hx] at hj
        simp only [cond_false] at hj
        have hm : m < xs.findIdx p := by omega
        simpa using ih m hm
    · rw [List.findIdx_cons, hx] at hj
      simp at hj

theorem get?_findIdx_self {α : Type} (p : α → Bool) (l : List α) :
    (l.get? (l.findIdx p)).map p = some true ∨ l.findIdx p = l.length := by
  induction l with
  | nil => right; rfl
  | cons x xs ih =>
    cases hx : p x
    · rw [List.findIdx_cons, hx]
      simp only [cond_false]
      rcases ih with h | h
      · left
        simpa using h
      · right
        simp [h]
    · left
      rw [List.findIdx_cons, hx]
      simp [hx]

theorem listInsertAt_eq_take_drop {α : Type} (a : α) :
    ∀ (l : List α) (k : Nat), k ≤ l.length →
      listInsertAt k a l = l.take k ++ a :: l.drop k := by
  intro l
  induction l with
  | nil =>
    intro k hk
    have : k = 0 := by simpa using hk
    subst this
    rfl
  | cons x xs ih =>
    intro k hk
    cases k with
    | zero => rfl
    | succ m =>
      simp only [listInsertAt, List.take_succ_cons, List.drop_succ_cons,
        List.cons_append]
      rw [ih m (by simpa using hk)]

/-! ### Claim theorems -/

/-- C1: every list-mutating operation — add (guest and authenticated branches),
toggle, edit, delete and drag-reorder — applied to a normalized list with
distinct ids produces a normalized list: the active items form a contiguous run
before the completed items, and positions are exactly `0..n-1`. -/
theorem mutations_preserve_normalized
    (l : List Item) (h : Normalized l) (hnd : (l.map Item.id).Nodup)
    (draft txt : String) (newId tid eid did a o : Nat) (b : Bool)
    (row : Row) (hrow : row.completed = false) :
    Normalized (submitGuest draft newId l) ∧
    Normalized (submitAuthedApply row l) ∧
    Normalized (handleToggle l tid b) ∧
    Normalized (commitEdit txt eid l) ∧
    Normalized (handleDelete l did) ∧
    Normalized (onDragEnd l a o) :=
  ⟨normalized_submitGuest draft newId l h,
   normalized_submitAuthedApply row l hrow h,
   normalized_handleToggle l tid b,
   normalized_commitEdit txt eid l h,
   normalized_handleDelete l did h,
   normalized_onDragEnd l a o h hnd⟩

/-- Witness for C1 at a concrete normalized two-item list. -/
theorem mutations_preserve_normalized_witness :
    Normalized exList ∧ (exList.map Item.id).Nodup ∧ exRow.completed = false ∧
    (Normalized (submitGuest " x " 9 exList) ∧
     Normalized (submitAuthedApply exRow exList) ∧
     Normalized (handleToggle exList 1 true) ∧
     Normalized (commitEdit " y " 2 exList) ∧
     Normalized (handleDelete exList 1) ∧
     Normalized (onDragEnd exList 1 2)) :=
  ⟨by decide, by decide, by decide,
   mutations_preserve_normalized exList (by decide) (by decide)
     " x " " y " 9 1 2 1 1 2 true exRow (by decide)⟩

/-- C4 (amended): toggling an active item to completed re-partitions the list
and moves the item to the head (not the end) of the completed segment; toggling
a completed item back to active moves it to the end of the active segment. -/
theorem toggle_moves_to_segment_boundary {prev : List Item}
    (hpart : Partitioned prev) (hnd : (prev.map Item.id).Nodup)
    {x : Item} (hx : x ∈ prev) :
    (x.isCompleted = false →
      ((handleToggle prev x.id true).filter (fun i => i.isCompleted)).map Item.id
        = x.id :: (prev.filter (fun i => i.isCompleted)).map Item.id) ∧
    (x.isCompleted = true →
      ((handleToggle prev x.id false).filter (fun i => !i.isCompleted)).map Item.id
        = (prev.filter (fun i => !i.isCompleted)).map Item.id ++ [x.id]) ∧
    Normalized (handleToggle prev x.id true) ∧
    Normalized (handleToggle prev x.id false) :=
  ⟨fun hf => handleToggle_complete_head hpart hnd hx hf,
   fun ht => handleToggle_active_last hpart hnd hx ht,
   normalized_handleToggle prev x.id true,
   normalized_handleToggle prev x.id false⟩

/-- Counterexample for C4 as stated: on the normalized list
`[(id 1, active), (id 2, completed)]`, toggling item 1 to completed puts it at
the head of the completed segment, not at its end. -/
theorem toggle_completed_end_counterexample :
    Partitioned exList ∧ (exList.map Item.id).Nodup ∧
    (exList.get? 0).map Item.isCompleted = some false ∧
    ((handleToggle exList 1 true).filter (fun i => i.isCompleted)).head?.map Item.id
      = some 1 ∧
    ¬ (((handleToggle exList 1 true).filter
        (fun i => i.isCompleted)).getLast?.map Item.id = some 1) := by
  decide

/-- Witness for the amended C4 at a concrete list. -/
theorem toggle_moves_to_segment_boundary_witness :
    Partitioned exList ∧ (exList.map Item.id).Nodup ∧
    ((handleToggle exList 1 true).filter (fun i => i.isCompleted)).map Item.id
      = 1 :: (exList.filter (fun i => i.isCompleted)).map Item.id :=
  ⟨by decide, by decide,
   (toggle_moves_to_segment_boundary (by decide) (by decide)
     (show (⟨1, "a", false, 0⟩ : Item) ∈ exList by decide)).1 rfl⟩

/-- C5: a drag whose moved and target items carry different `isCompleted` flags
leaves the list unchanged; in particular the moved item keeps its flag. -/
theorem cross_segment_drag_noop (prev : List Item) (a o : Nat) {x y : Item}
    (hxa : prev.find? (fun i => i.id == a) = some x)
    (hxo : prev.find? (fun i => i.id == o) = some y)
    (hdiff : x.isCompleted ≠ y.isCompleted) :
    onDragEnd prev a o = prev := by
  unfold onDragEnd
  by_cases hao : a = o
  · rw [if_pos hao]
  · rw [if_neg hao]
    simp only [hxa, hxo]
    cases hflag : x.isCompleted
    · simp only [Bool.false_eq_true, if_false]
      split
      · rw [if_neg (by rw [hflag] at hdiff; exact hdiff)]
      · rfl
    · simp only [if_true]
      split
      · rw [if_neg (by rw [hflag] at hdiff; exact hdiff)]
      · rfl

/-- Witness for C5: dragging active item 1 onto completed item 2 is a no-op. -/
theorem cross_segment_drag_noop_witness :
    exList.find? (fun i => i.id == 1) = some (⟨1, "a", false, 0⟩ : Item) ∧
    exList.find? (fun i => i.id == 2) = some (⟨2, "b", true, 1⟩ : Item) ∧
    (⟨1, "a", false, 0⟩ : Item).isCompleted ≠ (⟨2, "b", true, 1⟩ : Item).isCompleted ∧
    onDragEnd exList 1 2 = exList :=
  ⟨by decide, by decide, by decide,
   @cross_segment_drag_noop exList 1 2 ⟨1, "a", false, 0⟩ ⟨2, "b", true, 1⟩
     (by decide) (by decide) (by decide)⟩

/-- C6: for distinct same-segment identifiers, the drag handler equals the
specification-side move: delete the moved item from its segment, reinsert it at
the target's index there, keep the other segment, reassemble as active ++
completed and reindex. -/
theorem drag_same_segment_delete_insert (prev : List Item) (a o : Nat)
    (hnd : (prev.map Item.id).Nodup) {x y : Item}
    (hxa : prev.find? (fun i => i.id == a) = some x)
    (hxo : prev.find? (fun i => i.id == o) = some y)
    (hsame : x.isCompleted = y.isCompleted)
    (hao : a ≠ o) :
    onDragEnd prev a o = reorderSpec prev a o :=
  onDragEnd_eq_reorderSpec prev a o hnd hxa hxo hsame hao

/-- Witness for C6: moving active item 1 onto active item 3 in a five-item list. -/
theorem drag_same_segment_delete_insert_witness :
    (exList5.map Item.id).Nodup ∧
    exList5.find? (fun i => i.id == 1) = some (⟨1, "p", false, 0⟩ : Item) ∧
    exList5.find? (fun i => i.id == 3) = some (⟨3, "r", false, 2⟩ : Item) ∧
    (1 : Nat) ≠ 3 ∧
    onDragEnd exList5 1 3 = reorderSpec exList5 1 3 :=
  ⟨by decide, by decide, by decide, by decide,
   @drag_same_segment_delete_insert exList5 1 3 (by decide) ⟨1, "p", false, 0⟩
     ⟨3, "r", false, 2⟩ (by decide) (by decide) (by decide) (by decide)⟩

/-- C7: `orderByCompletion` (the spec's partitionByCompletion) yields a list in
which no completed item precedes an incomplete one, keeps the relative order of
each group (stable partition, comparing everything except the rewritten
positions), and reindexes positions to `0..n-1`. -/
theorem partition_by_completion_stable (l : List Item) :
    Partitioned (orderByCompletion l) ∧
    ((orderByCompletion l).filter (fun i => !i.isCompleted)).map
        (fun i => (i.id, i.content, i.isCompleted))
      = (l.filter (fun i => !i.isCompleted)).map
        (fun i => (i.id, i.content, i.isCompleted)) ∧
    ((orderByCompletion l).filter (fun i => i.isCompleted)).map
        (fun i => (i.id, i.content, i.isCompleted))
      = (l.filter (fun i => i.isCompleted)).map
        (fun i => (i.id, i.content, i.isCompleted)) ∧
    (orderByCompletion l).map Item.position
      = List.range (orderByCompletion l).length := by
  refine ⟨(normalized_orderByCompletion l).1, ?_, ?_,
    (normalized_orderByCompletion l).2⟩
  · simp only [orderByCompletion, reindex]
    rw [filter_reindexFrom_map_eq (fun i => (i.id, i.content, i.isCompleted))
      (fun i => !i.isCompleted) (fun _ _ => rfl) (fun _ _ => rfl)]
    rw [List.filter_append, filter_not_c_of_filter_not_c, filter_not_c_of_filter_c,
      List.append_nil]
  · simp only [orderByCompletion, reindex]
    rw [filter_reindexFrom_map_eq (fun i => (i.id, i.content, i.isCompleted))
      (fun i => i.isCompleted) (fun _ _ => rfl) (fun _ _ => rfl)]
    rw [List.filter_append, filter_c_of_filter_not_c, filter_c_of_filter_c,
      List.nil_append]

/-- C8: a draft that trims to empty creates no item (and issues no remote
insert), and an edit whose text trims to empty leaves the items untouched. -/
theorem empty_content_rejected (draft txt : String) (newId userId eid : Nat)
    (items : List Item) (hd : jsTrim draft = "") (ht : jsTrim txt = "") :
    submitGuest draft newId items = items ∧
    submitAuthedRequest draft userId items = none ∧
    commitEdit txt eid items = items := by
  refine ⟨?_, ?_, ?_⟩ <;>
    simp [submitGuest, submitAuthedRequest, commitEdit, hd, ht]

/-- Witness for C8 on whitespace-only strings. -/
theorem empty_content_rejected_witness :
    jsTrim "   " = "" ∧ jsTrim " " = "" ∧
    submitGuest "   " 9 exList = exList ∧
    submitAuthedRequest "   " 42 exList = none ∧
    commitEdit " " 1 exList = exList := by
  refine ⟨by decide, by decide, ?_, ?_, ?_⟩
  · exact (empty_content_rejected "   " " " 9 42 1 exList (by decide) (by decide)).1
  · exact (empty_content_rejected "   " " " 9 42 1 exList (by decide) (by decide)).2.1
  · exact (empty_content_rejected "   " " " 9 42 1 exList (by decide) (by decide)).2.2

/-- C2: in the sign-in merge with a non-empty guest list, the rows handed to the
bulk insert are exactly one per guest item in guest order, each keeping its own
`isCompleted` flag, with `position = existing.length + guestIndex` and no
re-partitioning before the insert. -/
theorem merge_insert_payload_rows (env : MergeEnv) (u : Nat) (s : AppState)
    (g : List Item) (d : Option (List Row))
    (hb : s.guestBlob = some g) (hg : g ≠ [])
    (hc1 : env.cancelAfterFetch = false) (hf : env.fetchRes = .ok d) :
    (loadAndMerge env u s).2
        = some (insertPayload u (reindex g)
            (orderByCompletion (normalizeRows (d.getD [])))) ∧
    (insertPayload u (reindex g)
        (orderByCompletion (normalizeRows (d.getD [])))).length = g.length ∧
    ∀ i, (insertPayload u (reindex g)
        (orderByCompletion (normalizeRows (d.getD [])))).get? i
      = (g.get? i).map (fun it =>
          ⟨it.content, it.isCompleted,
            (orderByCompletion (normalizeRows (d.getD []))).length + i, u⟩) := by
  refine ⟨?_, insertPayload_length u g _, fun i => insertPayload_get? u g _ i⟩
  simp only [loadAndMerge, hc1, Bool.false_eq_true, if_false, hf, hb, loadGuestItems,
    Option.getD_some, reindex_isEmpty, isEmpty_false_of_ne_nil hg]
  cases hci : env.cancelAfterInsert
  · cases hie : env.insertErr
    · cases hcr : env.cancelAfterRefetch
      · cases hrr : env.refetchRes with
        | error m => simp
        | ok od =>
          cases od
          · simp
          · cases hup : env.upsertFinalErr <;> simp [applyUpsertErr]
      · simp
    · simp
  · simp

/-- Witness for C2 on a concrete two-row remote list and one-item guest list. -/
theorem merge_insert_payload_rows_witness :
    exState.guestBlob = some exGuest ∧ exGuest ≠ [] ∧
    exEnvOk.cancelAfterFetch = false ∧
    exEnvOk.fetchRes = .ok (some exRows) ∧
    (loadAndMerge exEnvOk 42 exState).2
      = some (insertPayload 42 (reindex exGuest)
          (orderByCompletion (normalizeRows ((some exRows).getD [])))) :=
  ⟨rfl, by decide, rfl, rfl,
   (merge_insert_payload_rows exEnvOk 42 exState exGuest (some exRows)
     rfl (by decide) rfl rfl).1⟩

/-- C3: in the merge, when the bulk insert fails the current list becomes the
normalized remote list and the guest blob is left untouched; the blob ends up
cleared exactly when the insert succeeds. -/
theorem merge_insert_failure_guest_blob (env : MergeEnv) (u : Nat) (s : AppState)
    (g : List Item) (d : Option (List Row))
    (hb : s.guestBlob = some g) (hg : g ≠ [])
    (hc1 : env.cancelAfterFetch = false) (hc2 : env.cancelAfterInsert = false)
    (hf : env.fetchRes = .ok d) :
    (∀ msg, env.insertErr = some msg →
      (loadAndMerge env u s).1.items
          = orderByCompletion (normalizeRows (d.getD [])) ∧
      (loadAndMerge env u s).1.guestBlob = s.guestBlob ∧
      (loadAndMerge env u s).1.dataError = msg) ∧
    ((loadAndMerge env u s).1.guestBlob = none ↔ env.insertErr = none) := by
  simp only [loadAndMerge, hc1, Bool.false_eq_true, if_false, hf, hb, loadGuestItems,
    Option.getD_some, reindex_isEmpty, isEmpty_false_of_ne_nil hg, hc2]
  constructor
  · intro msg hmsg
    simp [hmsg]
  · cases hie : env.insertErr with
    | some m => simp
    | none =>
      cases hcr : env.cancelAfterRefetch
      · cases hrr : env.refetchRes with
        | error m2 => simp
        | ok od =>
          cases od
          · simp
          · cases hup : env.upsertFinalErr <;> simp [applyUpsertErr]
      · simp

/-- Witness for C3: a failing insert keeps the guest blob and adopts the remote
list; a succeeding insert clears the blob. -/
theorem merge_insert_failure_guest_blob_witness :
    exState.guestBlob = some exGuest ∧ exGuest ≠ [] ∧
    exEnvInsertFail.cancelAfterFetch = false ∧
    exEnvInsertFail.cancelAfterInsert = false ∧
    exEnvInsertFail.fetchRes = .ok (some exRows) ∧
    (loadAndMerge exEnvInsertFail 42 exState).1.items
        = orderByCompletion (normalizeRows ((some exRows).getD [])) ∧
    (loadAndMerge exEnvInsertFail 42 exState).1.guestBlob = exState.guestBlob ∧
    ¬ ((loadAndMerge exEnvInsertFail 42 exState).1.guestBlob = none) := by
  have hmain := merge_insert_failure_guest_blob exEnvInsertFail 42 exState exGuest
    (some exRows) rfl (by decide) rfl rfl rfl
  have hfail := hmain.1 "boom" rfl
  refine ⟨rfl, by decide, rfl, rfl, rfl, hfail.1, hfail.2.1, ?_⟩
  intro hnone
  have : exEnvInsertFail.insertErr = none := hmain.2.mp hnone
  simp [exEnvInsertFail, exEnvOk] at this

/-- C9: at every one of the three cancellation checkpoints (after the first
fetch, after the bulk insert, after the refreshing fetch), an observed
cancellation leaves the state exactly as it was before that round trip's
continuation: no item-list, error-slot or loading-flag update is applied. -/
theorem merge_cancellation_suppresses_updates (env : MergeEnv) (u : Nat)
    (s : AppState) :
    (env.cancelAfterFetch = true →
      (loadAndMerge env u s).1 = { s with isLoading := true, dataError := "" }) ∧
    (∀ g d, s.guestBlob = some g → g ≠ [] →
      env.cancelAfterFetch = false → env.fetchRes = .ok d →
      env.cancelAfterInsert = true →
      (loadAndMerge env u s).1 = { s with isLoading := true, dataError := "" }) ∧
    (∀ g d, s.guestBlob = some g → g ≠ [] →
      env.cancelAfterFetch = false → env.fetchRes = .ok d →
      env.cancelAfterInsert = false → env.insertErr = none →
      env.cancelAfterRefetch = true →
      (loadAndMerge env u s).1
        = { s with isLoading := true, dataError := "", guestBlob := none }) := by
  refine ⟨?_, ?_, ?_⟩
  · intro hc1
    simp [loadAndMerge, hc1]
  · intro g d hb hg hc1 hf hc2
    simp [loadAndMerge, hc1, hf, hb, loadGuestItems, reindex_isEmpty,
      isEmpty_false_of_ne_nil hg, hc2]
  · intro g d hb hg hc1 hf hc2 hie hc3
    simp [loadAndMerge, hc1, hf, hb, loadGuestItems, reindex_isEmpty,
      isEmpty_false_of_ne_nil hg, hc2, hie, hc3]

/-- Witness for C9 at each of the three checkpoints. -/
theorem merge_cancellation_suppresses_updates_witness :
    (loadAndMerge exEnvCancel1 42 exState).1
        = { exState with isLoading := true, dataError := "" } ∧
    (loadAndMerge exEnvCancel2 42 exState).1
        = { exState with isLoading := true, dataError := "" } ∧
    (loadAndMerge exEnvCancel3 42 exState).1
        = { exState with isLoading := true, dataError := "", guestBlob := none } :=
  ⟨(merge_cancellation_suppresses_updates exEnvCancel1 42 exState).1 rfl,
   (merge_cancellation_suppresses_updates exEnvCancel2 42 exState).2.1
     exGuest (some exRows) rfl (by decide) rfl rfl rfl,
   (merge_cancellation_suppresses_updates exEnvCancel3 42 exState).2.2
     exGuest (some exRows) rfl (by decide) rfl rfl rfl rfl rfl⟩

/-- C10: with a non-empty trimmed draft, both add branches insert the new item
at the index of the first completed item (the list length when none is
completed): every earlier item is active, the item at that index — if any — is
completed, and the resulting id sequence is the old one with the new id spliced
in at that index; the authenticated branch requests exactly that position. -/
theorem add_inserts_at_end_of_active_segment
    (draft : String) (newId userId : Nat) (items : List Item) (row : Row)
    (htrim : jsTrim draft ≠ "") :
    insertIndexOf items ≤ items.length ∧
    (∀ j, j < insertIndexOf items →
      (items.get? j).map Item.isCompleted = some false) ∧
    ((items.get? (insertIndexOf items)).map Item.isCompleted = some true ∨
      insertIndexOf items = items.length) ∧
    (submitGuest draft newId items).map Item.id
      = (items.map Item.id).take (insertIndexOf items)
        ++ newId :: (items.map Item.id).drop (insertIndexOf items) ∧
    (submitAuthedApply row items).map Item.id
      = (items.map Item.id).take (insertIndexOf items)
        ++ row.id :: (items.map Item.id).drop (insertIndexOf items) ∧
    submitAuthedRequest draft userId items
      = some ⟨jsTrim draft, false, insertIndexOf items, userId⟩ := by
  have hle : insertIndexOf items ≤ items.length := by
    unfold insertIndexOf
    exact List.findIdx_le_length (fun i : Item => i.isCompleted)
  refine ⟨hle, ?_, ?_, ?_, ?_, ?_⟩
  · intro j hj
    unfold insertIndexOf at hj
    exact get?_lt_findIdx (fun i => i.isCompleted) items j hj
  · unfold insertIndexOf
    exact get?_findIdx_self (fun i => i.isCompleted) items
  · unfold submitGuest
    rw [if_neg htrim]
    simp only [reindex]
    rw [reindexFrom_map_eq Item.id (fun _ _ => rfl), listInsertAt_map Item.id]
    rw [listInsertAt_eq_take_drop _ _ _ (by rw [List.length_map]; exact hle)]
  · unfold submitAuthedApply
    simp only [reindex]
    rw [reindexFrom_map_eq Item.id (fun _ _ => rfl), listInsertAt_map Item.id]
    rw [listInsertAt_eq_take_drop _ _ _ (by rw [List.length_map]; exact hle)]
  · simp [submitAuthedRequest, htrim]

/-- Witness for C10 on a concrete list with a completed suffix. -/
theorem add_inserts_at_end_of_active_segment_witness :
    jsTrim " hi " ≠ "" ∧
    (submitGuest " hi " 9 exList5).map Item.id
      = (exList5.map Item.id).take (insertIndexOf exList5)
        ++ 9 :: (exList5.map Item.id).drop (insertIndexOf exList5) :=
  ⟨by decide,
   (add_inserts_at_end_of_active_segment " hi " 9 42 exList5 exRow
     (by decide)).2.2.2.1⟩
